import Mathlib

/-!
Verification development for the virtual-memory simulator (src/lib/mmu.js,
src/lib/cpu.js, src/lib/exception.js, src/lib/syscall.js, src/lib/util.js).

The JavaScript source is shallowly embedded: each mutating method becomes a
pure function from the relevant state to the updated state.  JavaScript
arrays become lists, the JS Set of busy frame ids becomes an
insertion-ordered duplicate-free list, and the JS Map from pid to process
becomes an association list looked up at the first matching key.  A value
that can be `undefined` in JS (such as the page drawn from an empty set, or
the `frame` property of a page-table entry before the fault handler first
writes it) is an `Option`.  A thrown JS error is an explicit `JsError`
result: `pageFault` models the `Exception.PageFault` instance of
src/lib/exception.js, and `typeError` models any other runtime error (for
example reading a property of `undefined`), which carries no `type` tag
matching the page-fault dispatcher.  All stochastic choices
(`rand`/`roll`/`choose` of src/lib/util.js) are passed in explicitly as
oracle arguments, mirroring the injectable-RNG reading of the code.
-/

/-- `PageTableEntry` of src/lib/mmu.js.  The constructor initialises
`presented`, `referenced`, `modified` to false and a field `fid` to 0; the
`fid` field is never read nor written again by the program.  The kernel
fault handler instead writes a dynamic property `frame` (absent, i.e.
`undefined`, until first written), modelled as an `Option Nat`. -/
structure PageTableEntry where
  presented : Bool := false
  referenced : Bool := false
  modified : Bool := false
  fid : Nat := 0
  frame : Option Nat := none
deriving DecidableEq

/-- `Frame` of src/lib/mmu.js: a physical frame with its stable id and the
`(pid, page)` binding of its occupant. -/
structure Frame where
  fid : Nat
  busy : Bool := false
  pid : Nat := 0
  page : Nat := 0
deriving DecidableEq

/-- A thrown JS value: the `PageFault` exception of src/lib/exception.js,
or any other runtime error (whose `type` property is `undefined`). -/
inductive JsError where
  | pageFault (pid page : Nat)
  | typeError
deriving DecidableEq

/-- `Syscall` of src/lib/syscall.js.  The page of an `AccessMemory` syscall
is an `Option Nat` because `Process.run` obtains it from `choose`, which
yields `undefined` on an empty sequence. -/
inductive Syscall where
  | accessMemory (pid : Nat) (page : Option Nat) (modify : Bool)
  | exit (pid : Nat)
deriving DecidableEq

/-- The MMU state of src/lib/mmu.js: the dense frame table, the JS Set of
busy fids (insertion order kept, as exposed by the `busyTable` getter), and
the free list used as a stack (`pop` from the end, `push` to the end). -/
structure MMU where
  frameTable : List Frame
  busyTable : List Nat
  freeTable : List Nat
deriving DecidableEq

/-- `Process` of src/lib/cpu.js; the JS private fields `#ttl`, `#idleSet`,
`#workingSet`, `#workingSetTtl`, `#counter` keep their names. -/
structure Process where
  pid : Nat
  pageTable : List PageTableEntry
  ttl : Nat
  idleSet : List Nat
  workingSet : List Nat
  workingSetTtl : Nat
  counter : Nat
deriving DecidableEq

/-- The kernel process map: a `Map` from pid to `Process`, kept as an
insertion-ordered association list. -/
abbrev ProcMap := List (Nat × Process)

/-- The kernel state of src/lib/cpu.js: process map, MMU, the persistent
`#hand` of the clock replacer, and the access counters. -/
structure Kernel where
  processes : ProcMap
  mmu : MMU
  replHand : Nat
  totalStat : Nat
  faultsStat : Nat
  replacedStat : Nat
deriving DecidableEq

/-- Outcome of a kernel operation: normal return, an uncaught JS error
propagating to the caller together with the state at the point of the
throw, or `spin` when the clock replacer loop exceeds its fuel (modelling
a non-terminating `while (true)` sweep). -/
inductive KOut where
  | ok (k : Kernel)
  | exn (k : Kernel) (e : JsError)
  | spin (k : Kernel)
deriving DecidableEq

/-- Result data of a successful clock `replace()` call.  `procs` and `hand`
are the updated process map and hand; `vpid`, `vpage`, `vpte` are the
address and value of the returned (victim) page-table entry.  `vfid` (the
busy fid whose frame resolved to the victim) and `trace` (the inspected
`(pid, page, referencedBitFound)` triples, in order) are instrumentation
added for specification purposes only; the kernel reads neither. -/
structure ClockRes where
  procs : ProcMap
  hand : Nat
  vfid : Nat
  vpid : Nat
  vpage : Nat
  vpte : PageTableEntry
  trace : List (Nat × Nat × Bool)
deriving DecidableEq

/-- Outcome of the clock replacer loop: success, a runtime error while
resolving a busy frame to a page-table entry (reading a property of
`undefined`), or fuel exhaustion (the JS loop would spin forever). -/
inductive ClockOut where
  | ok (r : ClockRes)
  | err (procs : ProcMap) (hand : Nat) (trace : List (Nat × Nat × Bool))
  | out (procs : ProcMap) (hand : Nat) (trace : List (Nat × Nat × Bool))
deriving DecidableEq

/-- The random draws consumed by one `Process.run` step: the working-set
ttl increment and per-page Bernoulli(0.20) trials used if `rotate` fires,
the Bernoulli(0.9) set choice, the index drawn by `choose`, and the
Bernoulli(0.5) modify flag. -/
structure RunRng where
  rotTtlInc : Nat
  rotRolls : Nat → Bool
  rollSet : Bool
  chooseIx : Nat
  rollModify : Bool

/-- `choose` of src/lib/util.js: `arr[Math.floor(Math.random() * arr.length)]`.
The drawn index is `ix % length` for a non-empty array (uniform when `ix`
is); for an empty array the JS expression evaluates to `arr[0]`, which is
`undefined`, hence `none`. -/
def chooseFn (l : List α) (ix : Nat) : Option α :=
  l[ix % l.length]?

/-- JS `Set.add`: appends the element unless already present. -/
def busyAdd (l : List Nat) (fid : Nat) : List Nat :=
  if fid ∈ l then l else l ++ [fid]

/-- JS `Set.delete`: removes the element (a JS set holds it at most once,
so removing every occurrence is faithful). -/
def busyDelete (l : List Nat) (fid : Nat) : List Nat :=
  l.filter (fun x => x ≠ fid)

/-- In-place mutation of the frame object at index `fid` of the frame
table.  An out-of-range `fid` leaves the table unchanged (the source would
throw there; every call site keeps `fid` in range via MMU invariant (i)). -/
def updFrame (ft : List Frame) (fid : Nat) (f : Frame → Frame) : List Frame :=
  match ft[fid]? with
  | none => ft
  | some fr => ft.set fid (f fr)

/-- `MMU.alloc(pid, page)` of src/lib/mmu.js: returns `-1` (here `none`)
when the free list is empty — equivalently when `pop` has nothing to pop —
otherwise pops the last free fid, marks the frame busy with `(pid, page)`,
and adds the fid to the busy set. -/
def MMU.alloc (m : MMU) (pid page : Nat) : MMU × Option Nat :=
  match m.freeTable.getLast? with
  | none => (m, none)
  | some fid =>
    let ft := updFrame m.frameTable fid (fun fr => { fr with busy := true, pid := pid, page := page })
    ({ frameTable := ft, busyTable := busyAdd m.busyTable fid, freeTable := m.freeTable.dropLast }, some fid)

/-- `MMU.free(fid)` of src/lib/mmu.js: a no-op returning `false` when `fid`
is not busy; otherwise clears the frame attributes, removes the fid from
the busy set, pushes it onto the free list and returns `true`. -/
def MMU.free (m : MMU) (fid : Nat) : MMU × Bool :=
  if fid ∈ m.busyTable then
    let ft := updFrame m.frameTable fid (fun fr => { fr with busy := false, pid := 0, page := 0 })
    ({ frameTable := ft, busyTable := busyDelete m.busyTable fid, freeTable := m.freeTable ++ [fid] }, true)
  else (m, false)

/-- `MMU.realloc(fid, pid, page)` of src/lib/mmu.js: unconditionally
rewrites the frame binding; busy and free sets are untouched. -/
def MMU.realloc (m : MMU) (fid pid page : Nat) : MMU × Bool :=
  let ft := updFrame m.frameTable fid (fun fr => { fr with busy := true, pid := pid, page := page })
  ({ m with frameTable := ft }, true)

/-- `MMU.access(pid, pageTable, page, modify)` of src/lib/mmu.js.  Returns
the (possibly updated) page table together with the thrown error, if any:
reading `pageTable[page].presented` with `page` undefined or out of range
throws a runtime error; a non-presented entry throws `PageFault(pid, page)`.
Both throws happen before any mutation, so the error cases return the
input table; the MMU frame state is never touched by this method. -/
def MMU.access (m : MMU) (pid : Nat) (pt : List PageTableEntry)
    (page : Option Nat) (modify : Bool) :
    MMU × List PageTableEntry × Option JsError :=
  match page with
  | none => (m, pt, some .typeError)
  | some p =>
    match pt[p]? with
    | none => (m, pt, some .typeError)
    | some pte =>
      if pte.presented = false then (m, pt, some (.pageFault pid p))
      else
        let pte1 : PageTableEntry := { pte with referenced := true, modified := pte.modified || modify }
        (m, pt.set p pte1, none)

/-- `Process.#rotate()` of src/lib/cpu.js: raise `#workingSetTtl` by a
fresh `rand(128, 256)` draw (passed in as `ttlInc`) and re-partition the
page indices, page by page in increasing order, by independent
Bernoulli(0.20) trials (passed in as `pageRolls`). -/
def Process.rotate (p : Process) (ttlInc : Nat) (pageRolls : Nat → Bool) : Process :=
  { p with
    workingSetTtl := p.workingSetTtl + ttlInc,
    workingSet := (List.range p.pageTable.length).filter pageRolls,
    idleSet := (List.range p.pageTable.length).filter (fun pg => !pageRolls pg) }

/-- The `Process` constructor of src/lib/cpu.js: a page table of `ptLen`
fresh entries (`ptLen` drawn from `rand(32, 64)`), a `ttl` drawn from
`rand(1024, 2048)`, zero counter and working-set ttl, then an initial
`rotate` with the given draws. -/
def Process.create (pid ptLen ttl ttlInc : Nat) (pageRolls : Nat → Bool) : Process :=
  Process.rotate
    { pid := pid, pageTable := List.replicate ptLen {}, ttl := ttl,
      idleSet := [], workingSet := [], workingSetTtl := 0, counter := 0 }
    ttlInc pageRolls

/-- One step of `Process.run(kernel)` of src/lib/cpu.js, with the random
draws passed in.  Returns the updated process, the syscall it issues to
the kernel, and the `terminated` flag it returns.  The counter is read and
then incremented; at end of life an `Exit` syscall is issued; otherwise
the partition may rotate, a set is chosen by a Bernoulli(0.9) trial with
no fallback when the chosen set is empty, and an `AccessMemory` syscall is
issued with the page drawn by `choose` from that set. -/
def Process.run (p : Process) (g : RunRng) : Process × Syscall × Bool :=
  let counter := p.counter
  let p1 : Process := { p with counter := p.counter + 1 }
  if p1.ttl ≤ counter then
    (p1, Syscall.exit p1.pid, true)
  else
    let p2 := if p1.workingSetTtl ≤ counter
      then p1.rotate g.rotTtlInc g.rotRolls else p1
    let set := if g.rollSet then p2.workingSet else p2.idleSet
    let page := chooseFn set g.chooseIx
    (p2, Syscall.accessMemory p2.pid page g.rollModify, false)

/-- Iterate `Process.run` for `n` steps under the oracle stream `gs`,
keeping only the process component. -/
def runSteps (p : Process) (gs : Nat → RunRng) : Nat → Process
  | 0 => p
  | n + 1 => ((runSteps p gs n).run (gs n)).1

/-- JS `Map.get(pid)` on the kernel process map: the first entry with the
key, if any. -/
def lookupProc : ProcMap → Nat → Option Process
  | [], _ => none
  | e :: t, pid => if e.1 = pid then some e.2 else lookupProc t pid

/-- Resolve the page-table entry at `(pid, page)`:
`processes.get(pid).pageTable[page]`. -/
def lookupPte (procs : ProcMap) (pid page : Nat) : Option PageTableEntry :=
  (lookupProc procs pid).bind (fun p => p.pageTable[page]?)

/-- In-place mutation of the entry object at index `page` of a page table;
out of range, there is no object to mutate. -/
def updPte (pt : List PageTableEntry) (page : Nat)
    (f : PageTableEntry → PageTableEntry) : List PageTableEntry :=
  match pt[page]? with
  | none => pt
  | some pte => pt.set page (f pte)

/-- In-place mutation of the page-table entry object reached through
`processes.get(pid).pageTable[page]` (the first entry with key `pid`, as
`Map.get` returns). -/
def setPte : ProcMap → Nat → Nat → (PageTableEntry → PageTableEntry) → ProcMap
  | [], _, _, _ => []
  | e :: t, pid, pg, f =>
    if e.1 = pid then (e.1, { e.2 with pageTable := updPte e.2.pageTable pg f }) :: t
    else e :: setPte t pid pg f

/-- Store the (in place mutated) page table of the process with key `pid`
back into the map. -/
def setProcPT : ProcMap → Nat → List PageTableEntry → ProcMap
  | [], _, _ => []
  | e :: t, pid, pt =>
    if e.1 = pid then (e.1, { e.2 with pageTable := pt }) :: t
    else e :: setProcPT t pid pt

/-- JS `Map.delete(pid)`. -/
def procDelete (procs : ProcMap) (pid : Nat) : ProcMap :=
  procs.filter (fun e => e.1 ≠ pid)

/-- JS `Map.has(pid)`. -/
def mapHas (procs : ProcMap) (pid : Nat) : Bool :=
  procs.any (fun e => e.1 = pid)

/-- JS `Map.set(pid, p)`: replace the value at an existing key, else
append. -/
def mapSet (procs : ProcMap) (pid : Nat) (p : Process) : ProcMap :=
  if mapHas procs pid then
    procs.map (fun e => if e.1 = pid then (e.1, p) else e)
  else procs ++ [(pid, p)]

/-- `MAX_PROCESS_COUNT` of src/lib/cpu.js. -/
def MAX_PROCESS_COUNT : Nat := 25

/-- `rand({min, max, unique})` of src/lib/util.js: redraw while the
`unique` predicate rejects the draw.  `draws` is the tape of raw draws the
RNG would produce; the result is the first accepted one, `none` if the
tape is exhausted (the JS loop would simply keep drawing). -/
def randUnique (draws : List Nat) (pred : Nat → Bool) : Option Nat :=
  draws.find? (fun n => !pred n)

/-- `Kernel.#spawn(count)` of src/lib/cpu.js.  The loop runs
`Math.min(count, MAX_PROCESS_COUNT)` times; iteration `i` draws a pid by
rejection sampling against the current map (`tapes i` is the RNG tape that
call of `rand` consumes) and inserts a freshly constructed process (`mk`
abstracts the `new Process(pid)` constructor draws).  The result is `none`
when some rejection-sampling loop fails to find a fresh pid on its tape. -/
def Kernel.spawn (tapes : Nat → List Nat) (mk : Nat → Process)
    (procs : ProcMap) (count : Nat) : Option ProcMap :=
  (List.range (min count MAX_PROCESS_COUNT)).foldl
    (fun om i => om.bind (fun m =>
      (randUnique (tapes i) (fun q => mapHas m q)).map (fun pid => mapSet m pid (mk pid))))
    (some procs)

/-- The loop body of `Kernel.#terminateProcess`: for each page-table entry
with `presented` set, `mmu.free(pte.frame)`.  A `frame` property never
written (`undefined`) is passed to `free`, which rejects it as non-busy;
`freeArg` renders that call. -/
def freeArg (m : MMU) (fr : Option Nat) : MMU :=
  match fr with
  | none => m
  | some fid => (m.free fid).1

/-- Fold of the `Kernel.#terminateProcess` loop over the page table. -/
def freeLoop (m : MMU) (pt : List PageTableEntry) : MMU :=
  pt.foldl (fun m pte => if pte.presented then freeArg m pte.frame else m) m

/-- `Kernel.#terminateProcess(pid)` of src/lib/cpu.js: frees the frame of
every presented page-table entry of the process, then deletes the pid from
the map.  An absent pid makes `process.pageTable` throw. -/
def Kernel.terminateProcess (k : Kernel) (pid : Nat) : KOut :=
  match lookupProc k.processes pid with
  | none => .exn k .typeError
  | some proc =>
    .ok { k with mmu := freeLoop k.mmu proc.pageTable,
                 processes := procDelete k.processes pid }

/-- The `while (true)` body of `ClockReplacer.replace()` of src/lib/cpu.js,
with explicit fuel (each unit of fuel is one loop iteration, i.e. one
inspection).  Reads the busy fid under the hand, advances the hand modulo
the busy-table length, resolves frame, owning process and page-table
entry (a failed resolution throws), returns the entry if its referenced
bit is clear, else clears the bit and continues. -/
def clockLoop (m : MMU) : Nat → ProcMap → Nat → List (Nat × Nat × Bool) → ClockOut
  | 0, procs, hand, tr => .out procs hand tr
  | fuel + 1, procs, hand, tr =>
    match m.busyTable[hand]? with
    | none => .err procs hand tr
    | some fid =>
      let hand1 := (hand + 1) % m.busyTable.length
      match m.frameTable[fid]? with
      | none => .err procs hand1 tr
      | some fr =>
        match lookupPte procs fr.pid fr.page with
        | none => .err procs hand1 tr
        | some pte =>
          if pte.referenced = false then
            .ok ⟨procs, hand1, fid, fr.pid, fr.page, pte, tr ++ [(fr.pid, fr.page, false)]⟩
          else
            clockLoop m fuel
              (setPte procs fr.pid fr.page (fun q => { q with referenced := false }))
              hand1 (tr ++ [(fr.pid, fr.page, true)])

/-- `ClockReplacer.replace()` of src/lib/cpu.js: snapshot the busy table,
clamp the hand to `length - 1`, and run the sweep.  On an empty busy table
the clamped JS hand is `-1` and `busyTable[-1]` is `undefined`, so frame
resolution throws at once. -/
def clockReplace (fuel : Nat) (m : MMU) (procs : ProcMap) (hand : Nat) : ClockOut :=
  if m.busyTable.length = 0 then .err procs hand []
  else clockLoop m fuel procs (min hand (m.busyTable.length - 1)) []

/-- The two final assignments of `Kernel.#handlePageFault`:
`pte.presented = true; pte.frame = fid`.  The entry object was fetched as
`pageTable[page]` at handler entry; if `page` missed the table the fetch
gave `undefined` and the assignment here is where the handler throws. -/
def bindPte (k : Kernel) (pid page fid : Nat) : KOut :=
  match lookupPte k.processes pid page with
  | none => .exn k .typeError
  | some _ =>
    let procs := setPte k.processes pid page (fun q => { q with presented := true, frame := some fid })
    .ok { k with processes := procs }

/-- `Kernel.#handlePageFault(pid, page)` of src/lib/cpu.js: count the
fault, resolve the process (throwing if absent), try `mmu.alloc`; on the
`-1` sentinel count a replacement, run the clock sweep for a victim,
`mmu.realloc` the victim frame (throwing if the victim `frame` property is
undefined), clear the victim `presented` bit, and finally bind the
faulting entry to the repurposed frame. -/
def Kernel.handlePageFault (k0 : Kernel) (pid page : Nat) (fuel : Nat) : KOut :=
  let k1 : Kernel := { k0 with faultsStat := k0.faultsStat + 1 }
  match lookupProc k1.processes pid with
  | none => .exn k1 .typeError
  | some _proc =>
    match k1.mmu.alloc pid page with
    | (m1, some fid) => bindPte { k1 with mmu := m1 } pid page fid
    | (_, none) =>
      let k2 : Kernel := { k1 with replacedStat := k1.replacedStat + 1 }
      match clockReplace fuel k2.mmu k2.processes k2.replHand with
      | .err procs h _ => .exn { k2 with processes := procs, replHand := h } .typeError
      | .out procs h _ => .spin { k2 with processes := procs, replHand := h }
      | .ok r =>
        let k3 : Kernel := { k2 with processes := r.procs, replHand := r.hand }
        match r.vpte.frame with
        | none => .exn k3 .typeError
        | some vfid =>
          let k4 : Kernel := { k3 with mmu := (k3.mmu.realloc vfid pid page).1 }
          let procs5 := setPte k4.processes r.vpid r.vpage (fun q => { q with presented := false })
          let k5 : Kernel := { k4 with processes := procs5 }
          bindPte k5 pid page vfid

/-- The `try` block of `Kernel.syscall` of src/lib/cpu.js: dispatch on the
syscall tag.  `Exit` terminates the process; `AccessMemory` resolves the
process (throwing if absent) and forwards to `mmu.access`, whose throw —
raised before any mutation — leaves the kernel state as it was on entry. -/
def Kernel.dispatch (k : Kernel) (sc : Syscall) : KOut :=
  match sc with
  | .exit pid => k.terminateProcess pid
  | .accessMemory pid page modify =>
    match lookupProc k.processes pid with
    | none => .exn k .typeError
    | some proc =>
      match k.mmu.access pid proc.pageTable page modify with
      | (m1, pt1, none) =>
        .ok { k with mmu := m1, processes := setProcPT k.processes pid pt1 }
      | (_, _, some e) => .exn k e

/-- `Kernel.#handleException` of src/lib/cpu.js: a switch on
`exception.type` with a single `PAGE_FAULT` case and no default, so any
other thrown value falls through and is silently discarded. -/
def Kernel.handleException (k : Kernel) (e : JsError) (fuel : Nat) : KOut :=
  match e with
  | .pageFault pid page => k.handlePageFault pid page fuel
  | .typeError => .ok k

/-- `Kernel.syscall` of src/lib/cpu.js: the whole dispatch runs inside
`try`; a throw is routed to `#handleException`, which itself runs outside
the `try`, so anything the page-fault handler throws propagates. -/
def Kernel.syscall (k : Kernel) (sc : Syscall) (fuel : Nat) : KOut :=
  match k.dispatch sc with
  | .ok k1 => .ok k1
  | .spin k1 => .spin k1
  | .exn k1 e => k1.handleException e fuel

/-! ## Generic list lemmas -/

theorem ls_lt_of_getElem? {α : Type} {l : List α} {i : Nat} {a : α} (h : l[i]? = some a) : i < l.length :=
  (List.getElem?_eq_some.mp h).1

theorem ls_set_getElem?_self {α : Type} : ∀ (l : List α) (i : Nat) (a : α), l[i]? = some a → l.set i a = l := by
  intro l
  induction l with
  | nil => intro i a h; simp at h
  | cons x t ih =>
    intro i a h
    cases i with
    | zero =>
      rw [List.getElem?_cons_zero] at h
      simp at h
      simp [List.set, h]
    | succ j =>
      rw [List.getElem?_cons_succ] at h
      simp [List.set, ih j a h]

theorem ls_filter_eq_self {α : Type} : ∀ (l : List α) (p : α → Bool), (∀ x ∈ l, p x = true) → l.filter p = l := by
  intro l
  induction l with
  | nil => intro p _; rfl
  | cons x t ih =>
    intro p h
    have hx : p x = true := h x (by simp)
    simp [List.filter, hx, ih p (fun y hy => h y (List.mem_cons_of_mem x hy))]

theorem ls_filter_length_le_mono {α : Type} : ∀ (l : List α) (p q : α → Bool),
    (∀ x ∈ l, q x = true → p x = true) → (l.filter q).length ≤ (l.filter p).length := by
  intro l
  induction l with
  | nil => intro p q _; simp
  | cons x t ih =>
    intro p q h
    have ht := ih p q (fun y hy => h y (List.mem_cons_of_mem x hy))
    by_cases hq : q x = true
    · have hp : p x = true := h x (by simp) hq
      simp [List.filter, hq, hp]
      omega
    · have hq2 : q x = false := by simp at hq; exact hq
      by_cases hp : p x = true
      · simp [List.filter, hq2, hp]
        omega
      · have hp2 : p x = false := by simp at hp; exact hp
        simp [List.filter, hq2, hp2]
        omega

theorem ls_filter_length_lt {α : Type} : ∀ (l : List α) (p q : α → Bool),
    (∀ x ∈ l, q x = true → p x = true) →
    ∀ x0 ∈ l, p x0 = true → q x0 = false →
    (l.filter q).length < (l.filter p).length := by
  intro l
  induction l with
  | nil => intro p q _ x0 h0; simp at h0
  | cons x t ih =>
    intro p q himp x0 hx0 hp0 hq0
    rcases List.mem_cons.mp hx0 with hx | hx
    · have hqt := ls_filter_length_le_mono t p q (fun y hy => himp y (List.mem_cons_of_mem x hy))
      rw [hx] at hp0 hq0
      simp [List.filter, hq0, hp0]
      omega
    · have ht := ih p q (fun y hy => himp y (List.mem_cons_of_mem x hy)) x0 hx hp0 hq0
      by_cases hq : q x = true
      · have hp : p x = true := himp x (by simp) hq
        simp [List.filter, hq, hp]
        omega
      · have hq2 : q x = false := by simp at hq; exact hq
        by_cases hp : p x = true
        · simp [List.filter, hq2, hp]
          omega
        · have hp2 : p x = false := by simp at hp; exact hp
          simp [List.filter, hq2, hp2]
          omega

theorem ls_nodup_append_singleton {α : Type} : ∀ (l : List α) (a : α), a ∉ l → l.Nodup → (l ++ [a]).Nodup := by
  intro l
  induction l with
  | nil => intro a _ _; simp
  | cons x t ih =>
    intro a ha hn
    simp only [List.cons_append, List.nodup_cons]
    constructor
    · intro hmem
      rcases List.mem_append.mp hmem with h1 | h1
      · exact (List.nodup_cons.mp hn).1 h1
      · simp at h1
        exact ha (by simp [h1])
    · exact ih a (fun hm => ha (List.mem_cons_of_mem x hm)) (List.nodup_cons.mp hn).2

/-! ## Lemmas about the embedded container operations -/

theorem updPte_get_self (pt : List PageTableEntry) (pg : Nat) (f : PageTableEntry → PageTableEntry)
    (pte : PageTableEntry) (h : pt[pg]? = some pte) :
    (updPte pt pg f)[pg]? = some (f pte) := by
  unfold updPte
  rw [h]
  exact List.getElem?_set_self (ls_lt_of_getElem? h)

theorem updPte_get_ne (pt : List PageTableEntry) (pg pg' : Nat) (f : PageTableEntry → PageTableEntry)
    (h : pg ≠ pg') : (updPte pt pg f)[pg']? = pt[pg']? := by
  unfold updPte
  cases hg : pt[pg]? with
  | none => rfl
  | some pte => exact List.getElem?_set_ne h

theorem lookupProc_setPte (procs : ProcMap) (pid pg : Nat) (f : PageTableEntry → PageTableEntry) (pid' : Nat) :
    lookupProc (setPte procs pid pg f) pid' =
      if pid' = pid then
        (lookupProc procs pid').map (fun p => { p with pageTable := updPte p.pageTable pg f })
      else lookupProc procs pid' := by
  induction procs with
  | nil => simp [setPte, lookupProc]
  | cons e t ih =>
    simp only [setPte]
    by_cases he : e.1 = pid
    · rw [if_pos he]
      by_cases hpp : pid' = pid
      · have he1 : e.1 = pid' := by rw [he, hpp]
        simp [lookupProc, he1, hpp]
      · have he1 : e.1 ≠ pid' := by rw [he]; exact fun hh => hpp hh.symm
        simp [lookupProc, he1, hpp]
    · rw [if_neg he]
      by_cases he1 : e.1 = pid'
      · have hpp : pid' ≠ pid := by rw [← he1]; exact fun hh => he hh
        simp [lookupProc, he1, hpp]
      · simp [lookupProc, he1, ih]

theorem lookupPte_setPte_self (procs : ProcMap) (pid pg : Nat) (f : PageTableEntry → PageTableEntry)
    (pte : PageTableEntry) (h : lookupPte procs pid pg = some pte) :
    lookupPte (setPte procs pid pg f) pid pg = some (f pte) := by
  unfold lookupPte at *
  cases hp : lookupProc procs pid with
  | none => rw [hp] at h; simp at h
  | some proc =>
    rw [hp] at h
    rw [lookupProc_setPte, if_pos rfl, hp]
    exact updPte_get_self proc.pageTable pg f pte h

theorem lookupPte_setPte_ne (procs : ProcMap) (pid pg : Nat) (f : PageTableEntry → PageTableEntry)
    (pid' pg' : Nat) (h : pid' ≠ pid ∨ pg' ≠ pg) :
    lookupPte (setPte procs pid pg f) pid' pg' = lookupPte procs pid' pg' := by
  unfold lookupPte
  by_cases hpid : pid' = pid
  · have hpg : pg' ≠ pg := by
      rcases h with h1 | h1
      · exact absurd hpid h1
      · exact h1
    rw [lookupProc_setPte, if_pos hpid]
    cases hp : lookupProc procs pid' with
    | none => rfl
    | some proc =>
      exact updPte_get_ne proc.pageTable pg pg' f (fun hh => hpg hh.symm)
  · rw [lookupProc_setPte, if_neg hpid]

theorem lookupPte_setPte_isSome (procs : ProcMap) (pid pg pid' pg' : Nat)
    (f : PageTableEntry → PageTableEntry) (pte : PageTableEntry)
    (h : lookupPte procs pid' pg' = some pte) :
    ∃ pte', lookupPte (setPte procs pid pg f) pid' pg' = some pte' := by
  by_cases hpid : pid' = pid
  · by_cases hpg : pg' = pg
    · subst hpid; subst hpg
      exact ⟨f pte, lookupPte_setPte_self procs pid' pg' f pte h⟩
    · rw [lookupPte_setPte_ne procs pid pg f pid' pg' (Or.inr hpg)]
      exact ⟨pte, h⟩
  · rw [lookupPte_setPte_ne procs pid pg f pid' pg' (Or.inl hpid)]
    exact ⟨pte, h⟩

theorem lookupProc_procDelete_self (procs : ProcMap) (pid : Nat) :
    lookupProc (procDelete procs pid) pid = none := by
  unfold procDelete
  induction procs with
  | nil => rfl
  | cons e t ih =>
    by_cases he : e.1 = pid
    · rw [List.filter_cons_of_neg (by simp [he])]
      exact ih
    · rw [List.filter_cons_of_pos (by simp [he])]
      simpa [lookupProc, he] using ih

theorem mem_busyDelete (l : List Nat) (fid x : Nat) (h : x ∈ busyDelete l fid) : x ∈ l ∧ x ≠ fid := by
  unfold busyDelete at h
  have := List.mem_filter.mp h
  refine ⟨this.1, ?_⟩
  have h2 := this.2
  simp at h2
  exact h2

theorem mem_busyAdd_self (l : List Nat) (fid : Nat) : fid ∈ busyAdd l fid := by
  unfold busyAdd
  by_cases h : fid ∈ l
  · simp [h]
  · simp [h]

theorem busyAdd_of_not_mem (l : List Nat) (fid : Nat) (h : fid ∉ l) : busyAdd l fid = l ++ [fid] := by
  simp [busyAdd, h]

theorem busyDelete_append_self (l : List Nat) (fid : Nat) (h : fid ∉ l) :
    busyDelete (l ++ [fid]) fid = l := by
  unfold busyDelete
  rw [List.filter_append]
  have h1 : List.filter (fun x => decide (x ≠ fid)) [fid] = [] := by simp
  rw [h1, List.append_nil]
  apply ls_filter_eq_self
  intro x hx
  simp
  exact fun hh => h (hh ▸ hx)

theorem updFrame_get_self (ft : List Frame) (fid : Nat) (f : Frame → Frame) (fr : Frame)
    (h : ft[fid]? = some fr) : (updFrame ft fid f)[fid]? = some (f fr) := by
  unfold updFrame
  rw [h]
  exact List.getElem?_set_self (ls_lt_of_getElem? h)

theorem updFrame_get_ne (ft : List Frame) (fid fid' : Nat) (f : Frame → Frame)
    (h : fid ≠ fid') : (updFrame ft fid f)[fid']? = ft[fid']? := by
  unfold updFrame
  cases hg : ft[fid]? with
  | none => rfl
  | some fr => exact List.getElem?_set_ne h

theorem mapHas_false_iff (procs : ProcMap) (pid : Nat) :
    mapHas procs pid = false ↔ pid ∉ procs.map Prod.fst := by
  unfold mapHas
  rw [← Bool.not_eq_true, List.any_eq_true]
  constructor
  · intro h hc
    rcases List.mem_map.mp hc with ⟨e, he, hfst⟩
    exact h ⟨e, he, by simp [hfst]⟩
  · intro h hc
    rcases hc with ⟨e, he, hd⟩
    simp at hd
    exact h (List.mem_map.mpr ⟨e, he, hd⟩)

theorem mapSet_of_not_has (procs : ProcMap) (pid : Nat) (p : Process) (h : mapHas procs pid = false) :
    mapSet procs pid p = procs ++ [(pid, p)] := by
  simp [mapSet, h]

/-! ## C9: alloc and free sentinel behaviour -/

/-- C9: `mmu.alloc` returns the no-free-frame sentinel (`-1`, here `none`)
and leaves the MMU unchanged whenever the free list is empty; `mmu.free fid`
returns `false` and leaves the MMU unchanged whenever `fid` is not busy,
and returns `true` exactly when `fid` was busy. -/
theorem alloc_free_sentinels (m : MMU) (pid page fid : Nat) :
    (m.freeTable = [] → m.alloc pid page = (m, none)) ∧
    (fid ∉ m.busyTable → m.free fid = (m, false)) ∧
    ((m.free fid).2 = true ↔ fid ∈ m.busyTable) := by
  refine ⟨?_, ?_, ?_⟩
  · intro h
    unfold MMU.alloc
    rw [h]
    rfl
  · intro h
    unfold MMU.free
    rw [if_neg h]
  · unfold MMU.free
    by_cases h : fid ∈ m.busyTable
    · rw [if_pos h]
      simpa using h
    · rw [if_neg h]
      simpa using h

/-- Closed witness for `alloc_free_sentinels`. -/
def mmuW : MMU := { frameTable := [{ fid := 0 }, { fid := 1, busy := true, pid := 5, page := 2 }], busyTable := [1], freeTable := [0] }

/-- Closed witness for `alloc_free_sentinels`: an MMU with an empty free
list refuses allocation unchanged, and freeing a non-busy fid is a no-op. -/
def mmuWEmptyFree : MMU := { frameTable := [{ fid := 0 }], busyTable := [], freeTable := [] }

theorem alloc_free_sentinels_witness :
    mmuWEmptyFree.alloc 1 2 = (mmuWEmptyFree, none) ∧ mmuWEmptyFree.free 5 = (mmuWEmptyFree, false) :=
  ⟨(alloc_free_sentinels mmuWEmptyFree 1 2 5).1 (by decide),
   (alloc_free_sentinels mmuWEmptyFree 1 2 5).2.1 (by decide)⟩

/-! ## C4: the access check -/

/-- C4: for a page index inside the page table, `mmu.access` throws
`PageFault(pid, page)` exactly when the entry is not presented, leaving
the page table (and the untouched MMU frame state) unchanged; otherwise
it sets `referenced`, sets `modified` exactly when the `modify` flag or
the previous `modified` bit demands it, and changes nothing else. -/
theorem access_pagefault_iff (m : MMU) (pid : Nat) (pt : List PageTableEntry) (page : Nat)
    (modify : Bool) (pte : PageTableEntry) (h : pt[page]? = some pte) :
    ((m.access pid pt (some page) modify).2.2 = some (JsError.pageFault pid page) ↔ pte.presented = false) ∧
    (pte.presented = false → m.access pid pt (some page) modify = (m, pt, some (JsError.pageFault pid page))) ∧
    (pte.presented = true → m.access pid pt (some page) modify =
      (m, pt.set page { pte with referenced := true, modified := pte.modified || modify }, none)) := by
  by_cases hp : pte.presented = true
  · refine ⟨?_, ?_, ?_⟩
    · simp [MMU.access, h, hp]
    · intro hf; rw [hp] at hf; simp at hf
    · intro _; simp [MMU.access, h, hp]
  · have hp2 : pte.presented = false := by simp at hp; exact hp
    refine ⟨?_, ?_, ?_⟩
    · simp [MMU.access, h, hp2]
    · intro _; simp [MMU.access, h, hp2]
    · intro hf; rw [hp2] at hf; simp at hf

/-- Page table used by the access witness: a single non-presented entry. -/
def ptW : List PageTableEntry := [{}]

theorem access_pagefault_iff_witness :
    mmuWEmptyFree.access 3 ptW (some 0) false = (mmuWEmptyFree, ptW, some (JsError.pageFault 3 0)) :=
  (access_pagefault_iff mmuWEmptyFree 3 ptW 0 false {} (by decide)).2.1 (by decide)

/-! ## C8: alloc/free and alloc/realloc/free round trips -/

theorem frame_eta (fr : Frame) (h1 : fr.busy = false) (h2 : fr.pid = 0) (h3 : fr.page = 0) :
    ({ fid := fr.fid, busy := false, pid := 0, page := 0 } : Frame) = fr := by
  cases fr with
  | mk fid busy pid page =>
    simp only at h1 h2 h3
    rw [h1, h2, h3]

/-- C8: starting from an MMU whose free list ends in a well-formed free
frame `fid` (cleared attributes, not in the busy set), `alloc` returns
`fid` and a subsequent `free fid` restores the exact prior MMU state;
interposing a `realloc` on the returned fid leaves the same restored
state, hence the same busy and free membership, as `alloc` + `free`. -/
theorem alloc_free_roundtrip (m : MMU) (pid page pid2 page2 fid : Nat) (fr : Frame)
    (hlast : m.freeTable.getLast? = some fid)
    (hnb : fid ∉ m.busyTable)
    (hfr : m.frameTable[fid]? = some fr)
    (hbusy : fr.busy = false) (hpid : fr.pid = 0) (hpage : fr.page = 0) :
    (m.alloc pid page).2 = some fid ∧
    (m.alloc pid page).1.free fid = (m, true) ∧
    ((m.alloc pid page).1.realloc fid pid2 page2).1.free fid = (m, true) := by
  have hlt : fid < m.frameTable.length := ls_lt_of_getElem? hfr
  have halloc : m.alloc pid page =
      ({ frameTable := updFrame m.frameTable fid (fun q => { q with busy := true, pid := pid, page := page }),
         busyTable := busyAdd m.busyTable fid, freeTable := m.freeTable.dropLast }, some fid) := by
    unfold MMU.alloc
    rw [hlast]
  have hft1 : updFrame m.frameTable fid (fun q => { q with busy := true, pid := pid, page := page }) =
      m.frameTable.set fid { fr with busy := true, pid := pid, page := page } := by
    unfold updFrame
    rw [hfr]
  have hmem : fid ∈ busyAdd m.busyTable fid := mem_busyAdd_self _ _
  have e2 : busyDelete (busyAdd m.busyTable fid) fid = m.busyTable := by
    rw [busyAdd_of_not_mem _ _ hnb]
    exact busyDelete_append_self _ _ hnb
  have e3 : m.freeTable.dropLast ++ [fid] = m.freeTable :=
    List.dropLast_append_getLast? fid hlast
  have hfree_gen : ∀ a : Frame, a.fid = fr.fid →
      (MMU.mk (m.frameTable.set fid a) (busyAdd m.busyTable fid) m.freeTable.dropLast).free fid = (m, true) := by
    intro a ha
    unfold MMU.free
    rw [if_pos hmem]
    have hga : (m.frameTable.set fid a)[fid]? = some a :=
      List.getElem?_set_self (by simpa using hlt)
    have e1 : updFrame (m.frameTable.set fid a) fid (fun q => { q with busy := false, pid := 0, page := 0 }) =
        m.frameTable := by
      unfold updFrame
      rw [hga]
      show (m.frameTable.set fid a).set fid { fid := a.fid, busy := false, pid := 0, page := 0 } = m.frameTable
      rw [List.set_set]
      have hcl : ({ fid := a.fid, busy := false, pid := 0, page := 0 } : Frame) = fr := by
        rw [ha]
        exact frame_eta fr hbusy hpid hpage
      rw [hcl]
      exact ls_set_getElem?_self m.frameTable fid fr hfr
    simp only [e1, e2, e3]
  refine ⟨by rw [halloc], ?_, ?_⟩
  · rw [halloc]
    show (MMU.mk _ _ _).free fid = (m, true)
    rw [hft1]
    exact hfree_gen { fr with busy := true, pid := pid, page := page } rfl
  · rw [halloc]
    show ((MMU.mk _ _ _).realloc fid pid2 page2).1.free fid = (m, true)
    unfold MMU.realloc
    simp only
    rw [hft1]
    have hga : (m.frameTable.set fid { fr with busy := true, pid := pid, page := page })[fid]? =
        some { fr with busy := true, pid := pid, page := page } :=
      List.getElem?_set_self (by simpa using hlt)
    show (MMU.mk (updFrame _ fid _) _ _).free fid = (m, true)
    unfold updFrame
    rw [hga]
    show (MMU.mk ((m.frameTable.set fid { fid := fr.fid, busy := true, pid := pid, page := page }).set fid
        { fid := fr.fid, busy := true, pid := pid2, page := page2 }) (busyAdd m.busyTable fid)
        m.freeTable.dropLast).free fid = (m, true)
    rw [List.set_set]
    exact hfree_gen { fid := fr.fid, busy := true, pid := pid2, page := page2 } rfl

/-- MMU used by the round-trip witness: frame 0 free and cleared, frame 1
busy. -/
def mmuW8 : MMU :=
  { frameTable := [{ fid := 0 }, { fid := 1, busy := true, pid := 5, page := 2 }],
    busyTable := [1], freeTable := [0] }

theorem alloc_free_roundtrip_witness :
    (mmuW8.alloc 7 3).2 = some 0 ∧
    (mmuW8.alloc 7 3).1.free 0 = (mmuW8, true) ∧
    ((mmuW8.alloc 7 3).1.realloc 0 9 4).1.free 0 = (mmuW8, true) :=
  alloc_free_roundtrip mmuW8 7 3 9 4 0 { fid := 0 }
    (by decide) (by decide) (by decide) (by decide) (by decide) (by decide)

/-! ## C6: process lifetime -/

theorem rotate_pid (p : Process) (ti : Nat) (rolls : Nat → Bool) : (p.rotate ti rolls).pid = p.pid := rfl

theorem rotate_ttl (p : Process) (ti : Nat) (rolls : Nat → Bool) : (p.rotate ti rolls).ttl = p.ttl := rfl

theorem rotate_counter (p : Process) (ti : Nat) (rolls : Nat → Bool) : (p.rotate ti rolls).counter = p.counter := rfl

theorem run_pid (p : Process) (g : RunRng) : (p.run g).1.pid = p.pid := by
  unfold Process.run
  by_cases h : p.ttl ≤ p.counter
  · simp [h]
  · simp [h]
    by_cases hw : p.workingSetTtl ≤ p.counter
    · simp [hw, rotate_pid]
    · simp [hw]

theorem run_ttl (p : Process) (g : RunRng) : (p.run g).1.ttl = p.ttl := by
  unfold Process.run
  by_cases h : p.ttl ≤ p.counter
  · simp [h]
  · simp [h]
    by_cases hw : p.workingSetTtl ≤ p.counter
    · simp [hw, rotate_ttl]
    · simp [hw]

theorem run_counter (p : Process) (g : RunRng) : (p.run g).1.counter = p.counter + 1 := by
  unfold Process.run
  by_cases h : p.ttl ≤ p.counter
  · simp [h]
  · simp [h]
    by_cases hw : p.workingSetTtl ≤ p.counter
    · simp [hw, rotate_counter]
    · simp [hw]

theorem run_shape_live (p : Process) (g : RunRng) (h : p.counter < p.ttl) :
    (p.run g).2.2 = false ∧ ∃ pg md, (p.run g).2.1 = Syscall.accessMemory p.pid pg md := by
  unfold Process.run
  have hne : ¬ (p.ttl ≤ p.counter) := by omega
  by_cases hw : p.workingSetTtl ≤ p.counter
  · simp [hne, hw]
    exact rotate_pid _ _ _
  · simp [hne, hw]

theorem run_shape_exit (p : Process) (g : RunRng) (h : p.ttl ≤ p.counter) :
    (p.run g).2.2 = true ∧ (p.run g).2.1 = Syscall.exit p.pid := by
  unfold Process.run
  simp [h]

theorem runSteps_pid (p : Process) (gs : Nat → RunRng) : ∀ n, (runSteps p gs n).pid = p.pid := by
  intro n
  induction n with
  | zero => rfl
  | succ k ih => simp only [runSteps, run_pid, ih]

theorem runSteps_ttl (p : Process) (gs : Nat → RunRng) : ∀ n, (runSteps p gs n).ttl = p.ttl := by
  intro n
  induction n with
  | zero => rfl
  | succ k ih => simp only [runSteps, run_ttl, ih]

theorem runSteps_counter (p : Process) (gs : Nat → RunRng) : ∀ n, (runSteps p gs n).counter = p.counter + n := by
  intro n
  induction n with
  | zero => rfl
  | succ k ih =>
    simp only [runSteps, run_counter, ih]
    omega

/-- C6: a process created with counter 0 returns `false` from each of its
first `ttl` `run` calls, each such call issuing one `AccessMemory` syscall
and raising the counter by one; the next call issues `Exit(pid)` and
returns `true`. -/
theorem process_lifetime (p : Process) (gs : Nat → RunRng) (h0 : p.counter = 0) :
    (∀ i, i < p.ttl →
      ((runSteps p gs i).run (gs i)).2.2 = false ∧
      ((runSteps p gs i).run (gs i)).1.counter = i + 1 ∧
      ∃ pg md, ((runSteps p gs i).run (gs i)).2.1 = Syscall.accessMemory p.pid pg md) ∧
    ((runSteps p gs p.ttl).run (gs p.ttl)).2.2 = true ∧
    ((runSteps p gs p.ttl).run (gs p.ttl)).2.1 = Syscall.exit p.pid := by
  have hc : ∀ n, (runSteps p gs n).counter = n := by
    intro n
    rw [runSteps_counter p gs n, h0]
    omega
  refine ⟨?_, ?_, ?_⟩
  · intro i hi
    have hlive : (runSteps p gs i).counter < (runSteps p gs i).ttl := by
      rw [hc i, runSteps_ttl p gs i]
      exact hi
    have hs := run_shape_live (runSteps p gs i) (gs i) hlive
    refine ⟨hs.1, ?_, ?_⟩
    · rw [run_counter, hc i]
    · rcases hs.2 with ⟨pg, md, hsc⟩
      rw [runSteps_pid p gs i] at hsc
      exact ⟨pg, md, hsc⟩
  · have hdone : (runSteps p gs p.ttl).ttl ≤ (runSteps p gs p.ttl).counter := by
      rw [hc, runSteps_ttl]
    exact (run_shape_exit (runSteps p gs p.ttl) (gs p.ttl) hdone).1
  · have hdone : (runSteps p gs p.ttl).ttl ≤ (runSteps p gs p.ttl).counter := by
      rw [hc, runSteps_ttl]
    have := (run_shape_exit (runSteps p gs p.ttl) (gs p.ttl) hdone).2
    rw [runSteps_pid p gs p.ttl] at this
    exact this

/-- Concrete process and oracle stream for the lifetime witness. -/
def cpW : Process :=
  { pid := 3, pageTable := [{}], ttl := 2, idleSet := [0], workingSet := [],
    workingSetTtl := 5, counter := 0 }

/-- Constant oracle stream for the lifetime witness. -/
def gsW : Nat → RunRng := fun _ =>
  { rotTtlInc := 1, rotRolls := fun _ => false, rollSet := true, chooseIx := 0, rollModify := false }

theorem process_lifetime_witness :
    ((runSteps cpW gsW 2).run (gsW 2)).2.2 = true ∧
    ((runSteps cpW gsW 2).run (gsW 2)).2.1 = Syscall.exit 3 :=
  ⟨(process_lifetime cpW gsW rfl).2.1, (process_lifetime cpW gsW rfl).2.2⟩

/-! ## C1: page selection with an empty working set -/

/-- Oracle for the empty-working-set run: the Bernoulli(0.9) trial selects
the working set, the modify roll is true. -/
def c1rng : RunRng :=
  { rotTtlInc := 200, rotRolls := fun _ => false, rollSet := true, chooseIx := 0, rollModify := true }

/-- A process as built by the constructor when every Bernoulli(0.20) trial
of the initial `rotate` fails: 32 pages, all in the idle set, working set
empty. -/
def c1proc : Process := Process.create 7 32 1024 200 (fun _ => false)

/-- C1 (failing input): a freshly constructed process whose initial
`rotate` produced an empty working set, stepped with the Bernoulli(0.9)
trial choosing the working set.  The step does not exit and does not fall
back to the non-empty idle set: `choose` on the empty working set yields
`undefined`, and the issued `AccessMemory` syscall carries no valid page
index. -/
theorem run_empty_working_set_undefined_page :
    c1proc.workingSet = [] ∧ c1proc.idleSet ≠ [] ∧
    (c1proc.run c1rng).2.2 = false ∧
    (c1proc.run c1rng).2.1 = Syscall.accessMemory 7 none true := by decide

/-! ## C5: spawn count -/

theorem randUnique_fresh (draws : List Nat) (pred : Nat → Bool) (pid : Nat)
    (h : randUnique draws pred = some pid) : pred pid = false := by
  unfold randUnique at h
  have := List.find?_some h
  simpa using this

theorem spawn_fold_none (tapes : Nat → List Nat) (mk : Nat → Process) :
    ∀ (l : List Nat),
    l.foldl (fun om i => om.bind (fun m =>
      (randUnique (tapes i) (fun q => mapHas m q)).map (fun pid => mapSet m pid (mk pid))))
      (none : Option ProcMap) = none := by
  intro l
  induction l with
  | nil => rfl
  | cons x t ih => simpa using ih

theorem spawn_fold (tapes : Nat → List Nat) (mk : Nat → Process) :
    ∀ (l : List Nat) (m procs' : ProcMap),
    l.foldl (fun om i => om.bind (fun m =>
      (randUnique (tapes i) (fun q => mapHas m q)).map (fun pid => mapSet m pid (mk pid))))
      (some m) = some procs' →
    procs'.length = m.length + l.length ∧
    ((m.map Prod.fst).Nodup → (procs'.map Prod.fst).Nodup) := by
  intro l
  induction l with
  | nil =>
    intro m procs' h
    simp at h
    rw [← h]
    exact ⟨by simp, fun hh => hh⟩
  | cons x t ih =>
    intro m procs' h
    simp only [List.foldl_cons, Option.some_bind] at h
    cases hr : randUnique (tapes x) (fun q => mapHas m q) with
    | none =>
      rw [hr] at h
      rw [show ((none : Option Nat).map (fun pid => mapSet m pid (mk pid))) = none from rfl] at h
      rw [spawn_fold_none tapes mk t] at h
      exact absurd h (by simp)
    | some pid =>
      rw [hr] at h
      rw [show ((some pid).map (fun pid => mapSet m pid (mk pid))) = some (mapSet m pid (mk pid)) from rfl] at h
      have hfresh : mapHas m pid = false := randUnique_fresh _ _ _ hr
      have hset : mapSet m pid (mk pid) = m ++ [(pid, mk pid)] := mapSet_of_not_has _ _ _ hfresh
      rw [hset] at h
      have hres := ih (m ++ [(pid, mk pid)]) procs' h
      constructor
      · rw [hres.1]
        simp
        omega
      · intro hnd
        apply hres.2
        rw [List.map_append]
        apply ls_nodup_append_singleton
        · simpa using (mapHas_false_iff m pid).mp hfresh
        · exact hnd

/-- C5 (amended): whenever `spawn(n)` completes, it has created exactly
`min(n, MAX_PROCESS_COUNT)` new processes — the cap inside `spawn` is the
constant 25, not the head room `25 - live` — each with a pid fresh against
the map at its insertion (so pairwise-distinct pids are preserved); the
run-loop call site passes `min(n, MAX_PROCESS_COUNT - live)`, so spawning
through that call site from under 25 live processes never exceeds 25. -/
theorem spawn_count (tapes : Nat → List Nat) (mk : Nat → Process) (procs : ProcMap)
    (count : Nat) (procs' : ProcMap)
    (h : Kernel.spawn tapes mk procs count = some procs') :
    procs'.length = procs.length + min count MAX_PROCESS_COUNT ∧
    ((procs.map Prod.fst).Nodup → (procs'.map Prod.fst).Nodup) ∧
    (∀ c procs2, procs.length < MAX_PROCESS_COUNT →
      Kernel.spawn tapes mk procs (min c (MAX_PROCESS_COUNT - procs.length)) = some procs2 →
      procs2.length ≤ MAX_PROCESS_COUNT) := by
  have h1 := spawn_fold tapes mk (List.range (min count MAX_PROCESS_COUNT)) procs procs'
    (by simpa [Kernel.spawn] using h)
  refine ⟨by simpa using h1.1, h1.2, ?_⟩
  intro c procs2 hlt h2
  have h3 := spawn_fold tapes mk
    (List.range (min (min c (MAX_PROCESS_COUNT - procs.length)) MAX_PROCESS_COUNT)) procs procs2
    (by simpa [Kernel.spawn] using h2)
  have h4 := h3.1
  simp at h4
  have : MAX_PROCESS_COUNT = 25 := rfl
  omega

/-- Trivial process constructor for the spawn counterexample (the contents
of the created processes do not matter for the count). -/
def mkTrivial (pid : Nat) : Process :=
  { pid := pid, pageTable := [], ttl := 0, idleSet := [], workingSet := [],
    workingSetTtl := 0, counter := 0 }

/-- RNG tapes for the spawn counterexample: every `rand` call draws
1000, 1001, 1002, ... until a fresh pid appears. -/
def tapesW : Nat → List Nat := fun _ => (List.range 40).map (fun i => 1000 + i)

/-- A kernel process map with 23 live processes, pids 1000..1022. -/
def procs23 : ProcMap := (List.range 23).map (fun i => (1000 + i, mkTrivial (1000 + i)))

/-- C5 (counterexample): with 23 live processes, `spawn(3)` creates 3 new
processes, giving 26 live, not `min(3, MAX_PROCESS_COUNT - 23) = 2` as the
claim states: the cap inside `spawn` is `MAX_PROCESS_COUNT` itself. -/
theorem spawn_count_counterexample :
    (Kernel.spawn tapesW mkTrivial procs23 3).map List.length = some 26 ∧
    (Kernel.spawn tapesW mkTrivial procs23 3).map List.length ≠
      some (procs23.length + min 3 (MAX_PROCESS_COUNT - procs23.length)) := by decide

/-- Concrete two-process spawn for the amended-claim witness. -/
def procsW5 : ProcMap := [(1000, mkTrivial 1000), (1001, mkTrivial 1001)]

theorem spawn_count_witness :
    procsW5.length = ([] : ProcMap).length + min 2 MAX_PROCESS_COUNT :=
  (spawn_count (fun i => [1000 + i]) mkTrivial [] 2 procsW5 (by decide)).1

/-! ## C2: leak-free termination -/

theorem freeArg_busy_sub (m : MMU) (fr : Option Nat) (x : Nat)
    (h : x ∈ (freeArg m fr).busyTable) :
    x ∈ m.busyTable ∧ (freeArg m fr).frameTable[x]? = m.frameTable[x]? ∧ fr ≠ some x := by
  cases fr with
  | none => exact ⟨h, rfl, by simp⟩
  | some f =>
    have hfa : freeArg m (some f) = (m.free f).1 := rfl
    rw [hfa] at h ⊢
    by_cases hf : f ∈ m.busyTable
    · have hfree : (m.free f).1 =
          { frameTable := updFrame m.frameTable f (fun fr => { fr with busy := false, pid := 0, page := 0 }),
            busyTable := busyDelete m.busyTable f, freeTable := m.freeTable ++ [f] } := by
        unfold MMU.free
        rw [if_pos hf]
      rw [hfree] at h ⊢
      have hmem := mem_busyDelete m.busyTable f x h
      refine ⟨hmem.1, ?_, ?_⟩
      · exact updFrame_get_ne m.frameTable f x _ (fun hh => hmem.2 hh.symm)
      · intro hh
        simp at hh
        exact hmem.2 hh.symm
    · have hfree : (m.free f).1 = m := by
        unfold MMU.free
        rw [if_neg hf]
      rw [hfree] at h ⊢
      refine ⟨h, rfl, ?_⟩
      intro hh
      simp at hh
      rw [hh] at hf
      exact hf h

theorem freeLoop_busy (x : Nat) : ∀ (pt : List PageTableEntry) (m : MMU),
    x ∈ (freeLoop m pt).busyTable →
    x ∈ m.busyTable ∧ (freeLoop m pt).frameTable[x]? = m.frameTable[x]? ∧
    ∀ pte ∈ pt, pte.presented = true → pte.frame ≠ some x := by
  intro pt
  induction pt with
  | nil =>
    intro m h
    exact ⟨h, rfl, by simp⟩
  | cons pte t ih =>
    intro m h
    have hstep : freeLoop m (pte :: t) = freeLoop (if pte.presented then freeArg m pte.frame else m) t := by
      unfold freeLoop
      simp [List.foldl_cons]
    rw [hstep] at h
    have hrec := ih (if pte.presented then freeArg m pte.frame else m) h
    by_cases hp : pte.presented
    · rw [if_pos hp] at hrec hstep
      have hfa := freeArg_busy_sub m pte.frame x hrec.1
      refine ⟨hfa.1, ?_, ?_⟩
      · rw [hstep, hrec.2.1, hfa.2.1]
      · intro q hq hqp
        rcases List.mem_cons.mp hq with hq1 | hq1
        · rw [hq1]
          exact hfa.2.2
        · exact hrec.2.2 q hq1 hqp
    · rw [if_neg hp] at hrec hstep
      refine ⟨hrec.1, ?_, ?_⟩
      · rw [hstep, hrec.2.1]
      · intro q hq hqp
        rcases List.mem_cons.mp hq with hq1 | hq1
        · rw [hq1] at hqp
          exact absurd hqp (by simpa using hp)
        · exact hrec.2.2 q hq1 hqp

/-- C2: in a kernel state satisfying the residency bijection for `pid`
(every presented entry of the process maps through its `frame` field to a
busy frame recording `(pid, page)`, and every busy frame recording `pid`
maps back to a presented entry), `terminate_process(pid)` succeeds, after
it no busy frame records `pid`, and `pid` is gone from the process map. -/
theorem terminate_no_leak (k : Kernel) (pid : Nat) (proc : Process)
    (hlive : lookupProc k.processes pid = some proc)
    (_hb1 : ∀ pg pte, proc.pageTable[pg]? = some pte → pte.presented = true →
        ∃ fid, pte.frame = some fid ∧ fid ∈ k.mmu.busyTable ∧
          ∃ fr, k.mmu.frameTable[fid]? = some fr ∧ fr.pid = pid ∧ fr.page = pg)
    (hb2 : ∀ fid, fid ∈ k.mmu.busyTable → ∀ fr, k.mmu.frameTable[fid]? = some fr → fr.pid = pid →
        ∃ pg pte, proc.pageTable[pg]? = some pte ∧ fr.page = pg ∧ pte.presented = true ∧ pte.frame = some fid) :
    ∃ k2, k.terminateProcess pid = .ok k2 ∧
      (∀ fid, fid ∈ k2.mmu.busyTable → ∀ fr, k2.mmu.frameTable[fid]? = some fr → fr.pid ≠ pid) ∧
      lookupProc k2.processes pid = none := by
  refine ⟨{ k with mmu := freeLoop k.mmu proc.pageTable, processes := procDelete k.processes pid }, ?_, ?_, ?_⟩
  · unfold Kernel.terminateProcess
    rw [hlive]
  · intro fid hfid fr hfr hpid
    have hfl := freeLoop_busy fid proc.pageTable k.mmu hfid
    have hfr0 : k.mmu.frameTable[fid]? = some fr := by
      rw [← hfl.2.1]
      exact hfr
    rcases hb2 fid hfl.1 fr hfr0 hpid with ⟨pg, pte, hpt, _hpg, hpres, hframe⟩
    have hmem : pte ∈ proc.pageTable := List.getElem?_mem hpt
    exact hfl.2.2 pte hmem hpres hframe
  · exact lookupProc_procDelete_self k.processes pid

/-- Process used by the termination witness: one presented page mapped to
frame 0. -/
def procW2 : Process :=
  { pid := 5, pageTable := [{ presented := true, frame := some 0 }], ttl := 10,
    idleSet := [0], workingSet := [], workingSetTtl := 1, counter := 0 }

/-- Kernel state for the termination witness: frame 0 busy with (5, 0),
frame 1 free, satisfying the residency bijection. -/
def kW2 : Kernel :=
  { processes := [(5, procW2)],
    mmu := { frameTable := [{ fid := 0, busy := true, pid := 5, page := 0 }, { fid := 1 }],
             busyTable := [0], freeTable := [1] },
    replHand := 0, totalStat := 0, faultsStat := 0, replacedStat := 0 }

theorem terminate_no_leak_witness :
    ∃ k2, kW2.terminateProcess 5 = .ok k2 ∧
      (∀ fid, fid ∈ k2.mmu.busyTable → ∀ fr, k2.mmu.frameTable[fid]? = some fr → fr.pid ≠ 5) ∧
      lookupProc k2.processes 5 = none := by
  apply terminate_no_leak kW2 5 procW2 (by decide)
  · intro pg pte h hp
    have hlt : pg < 1 := by
      have := ls_lt_of_getElem? h
      simpa [procW2] using this
    interval_cases pg
    have hpte : pte = { presented := true, frame := some 0 } := by
      have : procW2.pageTable[0]? = some { presented := true, frame := some 0 } := by decide
      rw [this] at h
      exact (Option.some_inj.mp h).symm
    rw [hpte]
    exact ⟨0, rfl, by decide, ⟨{ fid := 0, busy := true, pid := 5, page := 0 }, by decide, rfl, rfl⟩⟩
  · intro fid hfid fr hfr hpid
    have hfid0 : fid = 0 := by
      have : kW2.mmu.busyTable = [0] := rfl
      rw [this] at hfid
      simpa using hfid
    rw [hfid0] at hfr
    have hfr0 : fr = { fid := 0, busy := true, pid := 5, page := 0 } := by
      have : kW2.mmu.frameTable[0]? = some { fid := 0, busy := true, pid := 5, page := 0 } := by decide
      rw [this] at hfr
      exact (Option.some_inj.mp hfr).symm
    rw [hfid0, hfr0]
    exact ⟨0, { presented := true, frame := some 0 }, by decide, rfl, rfl, rfl⟩

/-! ## The clock sweep: termination measure and effect lemmas -/

/-- The referenced bit a busy fid resolves to (false when unresolvable). -/
def refResolved (m : MMU) (procs : ProcMap) (fid : Nat) : Bool :=
  match m.frameTable[fid]? with
  | none => false
  | some fr =>
    match lookupPte procs fr.pid fr.page with
    | none => false
    | some pte => pte.referenced

/-- Number of busy fids currently resolving to a set referenced bit: the
decreasing measure of the clock sweep. -/
def countTrue (m : MMU) (procs : ProcMap) : Nat :=
  (m.busyTable.filter (refResolved m procs)).length

/-- Every busy frame resolves to a page-table entry of a live process
(kernel invariant (v), weakened to what the sweep itself needs). -/
def Resolv (m : MMU) (procs : ProcMap) : Prop :=
  ∀ fid ∈ m.busyTable, ∃ fr, m.frameTable[fid]? = some fr ∧
    ∃ pte, lookupPte procs fr.pid fr.page = some pte

/-- Relation between process maps before and after a clock sweep: every
entry is untouched or had its set referenced bit cleared. -/
def Cleared (procs procs' : ProcMap) : Prop :=
  ∀ pid pg, lookupPte procs' pid pg = lookupPte procs pid pg ∨
    ∃ pte, lookupPte procs pid pg = some pte ∧ pte.referenced = true ∧
      lookupPte procs' pid pg = some { pte with referenced := false }

theorem Cleared_refl (procs : ProcMap) : Cleared procs procs := fun _ _ => Or.inl rfl

theorem Cleared_trans (a b c : ProcMap) (h1 : Cleared a b) (h2 : Cleared b c) : Cleared a c := by
  intro pid pg
  rcases h2 pid pg with h2e | ⟨pte, hb, hr, hc⟩
  · rw [h2e]
    exact h1 pid pg
  · rcases h1 pid pg with h1e | ⟨pte0, ha, hr0, hb0⟩
    · rw [h1e] at hb
      exact Or.inr ⟨pte, hb, hr, hc⟩
    · rw [hb0] at hb
      have : pte = { pte0 with referenced := false } := by
        simpa using hb.symm
      rw [this] at hr
      simp at hr

theorem Cleared_step (procs : ProcMap) (p0 g0 : Nat) (pte0 : PageTableEntry)
    (h : lookupPte procs p0 g0 = some pte0) (hr : pte0.referenced = true) :
    Cleared procs (setPte procs p0 g0 (fun q => { q with referenced := false })) := by
  intro pid pg
  by_cases hp : pid = p0
  · by_cases hg : pg = g0
    · subst hp; subst hg
      exact Or.inr ⟨pte0, h, hr,
        lookupPte_setPte_self procs pid pg (fun q => { q with referenced := false }) pte0 h⟩
    · exact Or.inl (lookupPte_setPte_ne procs p0 g0 _ pid pg (Or.inr hg))
  · exact Or.inl (lookupPte_setPte_ne procs p0 g0 _ pid pg (Or.inl hp))

theorem Resolv_step (m : MMU) (procs : ProcMap) (p0 g0 : Nat)
    (f : PageTableEntry → PageTableEntry)
    (hres : Resolv m procs) : Resolv m (setPte procs p0 g0 f) := by
  intro fid hfid
  rcases hres fid hfid with ⟨fr, hfr, pte, hpte⟩
  rcases lookupPte_setPte_isSome procs p0 g0 fr.pid fr.page f pte hpte with ⟨pte', hpte'⟩
  exact ⟨fr, hfr, pte', hpte'⟩

theorem countTrue_step_lt (m : MMU) (procs : ProcMap) (fid0 : Nat) (fr0 : Frame) (pte0 : PageTableEntry)
    (hmem : fid0 ∈ m.busyTable)
    (hfr0 : m.frameTable[fid0]? = some fr0)
    (hpte0 : lookupPte procs fr0.pid fr0.page = some pte0)
    (href : pte0.referenced = true) :
    countTrue m (setPte procs fr0.pid fr0.page (fun q => { q with referenced := false })) < countTrue m procs := by
  unfold countTrue
  apply ls_filter_length_lt m.busyTable (refResolved m procs)
    (refResolved m (setPte procs fr0.pid fr0.page (fun q => { q with referenced := false })))
  · intro f _ hq
    unfold refResolved at hq ⊢
    cases hfr : m.frameTable[f]? with
    | none => rw [hfr] at hq; simp at hq
    | some fr =>
      simp only [hfr] at hq ⊢
      by_cases hp : fr.pid = fr0.pid
      · by_cases hg : fr.page = fr0.page
        · rw [hp, hg] at hq
          simp only [lookupPte_setPte_self procs fr0.pid fr0.page _ pte0 hpte0] at hq
          simp at hq
        · rw [lookupPte_setPte_ne procs fr0.pid fr0.page _ fr.pid fr.page (Or.inr hg)] at hq
          exact hq
      · rw [lookupPte_setPte_ne procs fr0.pid fr0.page _ fr.pid fr.page (Or.inl hp)] at hq
        exact hq
  · exact hmem
  · simp only [refResolved, hfr0, hpte0]
    exact href
  · simp only [refResolved, hfr0, lookupPte_setPte_self procs fr0.pid fr0.page _ pte0 hpte0]

/-- One-step equation for the sweep body once the inspected fid resolves. -/
theorem clockLoop_succ_eq (m : MMU) (procs : ProcMap) (hand : Nat)
    (acc : List (Nat × Nat × Bool)) (fuel : Nat) (fid : Nat) (fr : Frame) (pte : PageTableEntry)
    (hfid : m.busyTable[hand]? = some fid)
    (hfr : m.frameTable[fid]? = some fr)
    (hpte : lookupPte procs fr.pid fr.page = some pte) :
    clockLoop m (fuel + 1) procs hand acc =
      if pte.referenced = false then
        .ok ⟨procs, (hand + 1) % m.busyTable.length, fid, fr.pid, fr.page, pte,
             acc ++ [(fr.pid, fr.page, false)]⟩
      else
        clockLoop m fuel (setPte procs fr.pid fr.page (fun q => { q with referenced := false }))
          ((hand + 1) % m.busyTable.length) (acc ++ [(fr.pid, fr.page, true)]) := by
  simp only [clockLoop, hfid, hfr, hpte]

theorem clockLoop_terminates (m : MMU) : ∀ (fuel : Nat) (procs : ProcMap) (hand : Nat)
    (acc : List (Nat × Nat × Bool)),
    Resolv m procs → hand < m.busyTable.length → countTrue m procs < fuel →
    ∃ r, clockLoop m fuel procs hand acc = .ok r ∧ r.trace.length ≤ acc.length + fuel := by
  intro fuel
  induction fuel with
  | zero =>
    intro procs hand acc _ _ hct
    omega
  | succ n ih =>
    intro procs hand acc hres hlt hct
    have hfid : m.busyTable[hand]? = some m.busyTable[hand] := List.getElem?_eq_getElem hlt
    have hmem : m.busyTable[hand] ∈ m.busyTable := List.getElem?_mem hfid
    rcases hres _ hmem with ⟨fr, hfr, pte, hpte⟩
    rw [clockLoop_succ_eq m procs hand acc n _ fr pte hfid hfr hpte]
    by_cases href : pte.referenced = false
    · rw [if_pos href]
      refine ⟨_, rfl, ?_⟩
      simp only [List.length_append, List.length_cons, List.length_nil]
      omega
    · rw [if_neg href]
      have href2 : pte.referenced = true := by simpa using href
      have hlen : 0 < m.busyTable.length := Nat.lt_of_le_of_lt (Nat.zero_le hand) hlt
      have hlt1 : (hand + 1) % m.busyTable.length < m.busyTable.length := Nat.mod_lt _ hlen
      have hres1 := Resolv_step m procs fr.pid fr.page (fun q => { q with referenced := false }) hres
      have hct1 : countTrue m (setPte procs fr.pid fr.page (fun q => { q with referenced := false })) < n := by
        have := countTrue_step_lt m procs _ fr pte hmem hfr hpte href2
        omega
      rcases ih _ _ (acc ++ [(fr.pid, fr.page, true)]) hres1 hlt1 hct1 with ⟨r, hr, hlenr⟩
      refine ⟨r, hr, ?_⟩
      simp at hlenr
      omega

theorem clockLoop_props (m : MMU) : ∀ (fuel : Nat) (procs : ProcMap) (hand : Nat)
    (acc : List (Nat × Nat × Bool)) (r : ClockRes),
    clockLoop m fuel procs hand acc = .ok r →
    Cleared procs r.procs ∧
    lookupPte r.procs r.vpid r.vpage = some r.vpte ∧
    r.vpte.referenced = false ∧
    r.vfid ∈ m.busyTable ∧
    (∃ fr, m.frameTable[r.vfid]? = some fr ∧ fr.pid = r.vpid ∧ fr.page = r.vpage) := by
  intro fuel
  induction fuel with
  | zero =>
    intro procs hand acc r h
    simp [clockLoop] at h
  | succ n ih =>
    intro procs hand acc r h
    cases hfid : m.busyTable[hand]? with
    | none =>
      simp only [clockLoop, hfid] at h
      exact ClockOut.noConfusion h
    | some fid =>
      cases hfr : m.frameTable[fid]? with
      | none =>
        simp only [clockLoop, hfid, hfr] at h
        exact ClockOut.noConfusion h
      | some fr =>
        cases hpte : lookupPte procs fr.pid fr.page with
        | none =>
          simp only [clockLoop, hfid, hfr, hpte] at h
          exact ClockOut.noConfusion h
        | some pte =>
          rw [clockLoop_succ_eq m procs hand acc n fid fr pte hfid hfr hpte] at h
          by_cases href : pte.referenced = false
          · rw [if_pos href] at h
            have hr : r = ⟨procs, (hand + 1) % m.busyTable.length, fid, fr.pid, fr.page, pte,
                acc ++ [(fr.pid, fr.page, false)]⟩ := by
              cases h
              rfl
            rw [hr]
            exact ⟨Cleared_refl procs, hpte, href, List.getElem?_mem hfid, ⟨fr, hfr, rfl, rfl⟩⟩
          · rw [if_neg href] at h
            have href2 : pte.referenced = true := by simpa using href
            have hrec := ih _ _ _ r h
            refine ⟨Cleared_trans _ _ _ (Cleared_step procs fr.pid fr.page pte hpte href2) hrec.1,
              hrec.2.1, hrec.2.2.1, hrec.2.2.2.1, hrec.2.2.2.2⟩

theorem clockLoop_trace (m : MMU) : ∀ (fuel : Nat) (procs : ProcMap) (hand : Nat)
    (acc : List (Nat × Nat × Bool)) (r : ClockRes),
    clockLoop m fuel procs hand acc = .ok r →
    (∀ e ∈ acc, e.2.2 = true → ∃ pte, lookupPte procs e.1 e.2.1 = some pte ∧ pte.referenced = false) →
    ∀ e ∈ r.trace, e.2.2 = true → ∃ pte, lookupPte r.procs e.1 e.2.1 = some pte ∧ pte.referenced = false := by
  intro fuel
  induction fuel with
  | zero =>
    intro procs hand acc r h
    simp [clockLoop] at h
  | succ n ih =>
    intro procs hand acc r h hacc
    cases hfid : m.busyTable[hand]? with
    | none =>
      simp only [clockLoop, hfid] at h
      exact ClockOut.noConfusion h
    | some fid =>
      cases hfr : m.frameTable[fid]? with
      | none =>
        simp only [clockLoop, hfid, hfr] at h
        exact ClockOut.noConfusion h
      | some fr =>
        cases hpte : lookupPte procs fr.pid fr.page with
        | none =>
          simp only [clockLoop, hfid, hfr, hpte] at h
          exact ClockOut.noConfusion h
        | some pte =>
          rw [clockLoop_succ_eq m procs hand acc n fid fr pte hfid hfr hpte] at h
          by_cases href : pte.referenced = false
          · rw [if_pos href] at h
            have hr : r = ⟨procs, (hand + 1) % m.busyTable.length, fid, fr.pid, fr.page, pte,
                acc ++ [(fr.pid, fr.page, false)]⟩ := by
              cases h
              rfl
            rw [hr]
            intro e he htrue
            rcases List.mem_append.mp he with he1 | he1
            · exact hacc e he1 htrue
            · simp at he1
              rw [he1] at htrue
              simp at htrue
          · rw [if_neg href] at h
            have href2 : pte.referenced = true := by simpa using href
            apply ih _ _ _ r h
            intro e he htrue
            rcases List.mem_append.mp he with he1 | he1
            · rcases hacc e he1 htrue with ⟨q, hq, hqr⟩
              by_cases hp : e.1 = fr.pid
              · by_cases hg : e.2.1 = fr.page
                · rw [hp, hg] at hq ⊢
                  rw [hq] at hpte
                  have : q = pte := by simpa using hpte
                  refine ⟨{ pte with referenced := false },
                    lookupPte_setPte_self procs fr.pid fr.page _ pte (by rw [← this]; exact hq), rfl⟩
                · rw [lookupPte_setPte_ne procs fr.pid fr.page _ e.1 e.2.1 (Or.inr hg)]
                  exact ⟨q, hq, hqr⟩
              · rw [lookupPte_setPte_ne procs fr.pid fr.page _ e.1 e.2.1 (Or.inl hp)]
                exact ⟨q, hq, hqr⟩
            · simp at he1
              subst he1
              exact ⟨{ pte with referenced := false },
                lookupPte_setPte_self procs fr.pid fr.page _ pte hpte, rfl⟩

theorem clockReplace_terminates (m : MMU) (procs : ProcMap) (hand fuel : Nat)
    (hne : m.busyTable ≠ []) (hres : Resolv m procs) (hfuel : countTrue m procs < fuel) :
    ∃ r, clockReplace fuel m procs hand = .ok r ∧ r.trace.length ≤ fuel := by
  unfold clockReplace
  have hlen : ¬ m.busyTable.length = 0 := fun h0 => hne (List.length_eq_zero.mp h0)
  rw [if_neg hlen]
  have hlenpos : 0 < m.busyTable.length := Nat.pos_of_ne_zero hlen
  have hhand : min hand (m.busyTable.length - 1) < m.busyTable.length :=
    Nat.lt_of_le_of_lt (Nat.min_le_right _ _) (Nat.sub_lt hlenpos Nat.one_pos)
  rcases clockLoop_terminates m fuel procs _ [] hres hhand hfuel with ⟨r, hr, hlenr⟩
  exact ⟨r, hr, by simpa using hlenr⟩

theorem clockReplace_props (m : MMU) (procs : ProcMap) (hand fuel : Nat) (r : ClockRes)
    (h : clockReplace fuel m procs hand = .ok r) :
    Cleared procs r.procs ∧
    lookupPte r.procs r.vpid r.vpage = some r.vpte ∧
    r.vpte.referenced = false ∧
    r.vfid ∈ m.busyTable ∧
    (∃ fr, m.frameTable[r.vfid]? = some fr ∧ fr.pid = r.vpid ∧ fr.page = r.vpage) ∧
    (∀ e ∈ r.trace, e.2.2 = true → ∃ pte, lookupPte r.procs e.1 e.2.1 = some pte ∧ pte.referenced = false) := by
  unfold clockReplace at h
  by_cases hl : m.busyTable.length = 0
  · rw [if_pos hl] at h
    exact ClockOut.noConfusion h
  · rw [if_neg hl] at h
    have h1 := clockLoop_props m fuel procs _ [] r h
    have h2 := clockLoop_trace m fuel procs _ [] r h (by intro e he; simp at he)
    exact ⟨h1.1, h1.2.1, h1.2.2.1, h1.2.2.2.1, h1.2.2.2.2, h2⟩

/-- C3: whenever the busy set is non-empty and every busy frame resolves
to a page-table entry of a live process, a clock `replace()` call with
fuel `2·|busy|` (one unit of fuel per loop iteration, i.e. per inspection)
returns a page-table entry, after at most `2·|busy|` inspections, for
every initial hand position and every initial assignment of referenced
bits. -/
theorem clock_replace_terminates (m : MMU) (procs : ProcMap) (hand : Nat)
    (hne : m.busyTable ≠ []) (hres : Resolv m procs) :
    ∃ r, clockReplace (2 * m.busyTable.length) m procs hand = .ok r ∧
      r.trace.length ≤ 2 * m.busyTable.length ∧
      lookupPte r.procs r.vpid r.vpage = some r.vpte := by
  have hlenpos : 0 < m.busyTable.length := List.length_pos.mpr hne
  have hct : countTrue m procs ≤ m.busyTable.length := List.length_filter_le _ _
  have hfuel : countTrue m procs < 2 * m.busyTable.length := by omega
  rcases clockReplace_terminates m procs hand _ hne hres hfuel with ⟨r, hr, hlen⟩
  exact ⟨r, hr, hlen, (clockReplace_props m procs hand _ r hr).2.1⟩

/-- C7: after any successful clock `replace()`, every inspected entry
found with a set referenced bit has the bit cleared in the final map, the
returned entry has `referenced = false` at the moment of return, and no
entry has its `presented`, `modified`, `frame` or `fid` field changed (the
replacer returns no MMU, so frames are untouched by construction); the
only mutation is clearing referenced bits. -/
theorem clock_replace_effects (m : MMU) (procs : ProcMap) (hand fuel : Nat) (r : ClockRes)
    (h : clockReplace fuel m procs hand = .ok r) :
    (∀ e ∈ r.trace, e.2.2 = true → ∃ pte, lookupPte r.procs e.1 e.2.1 = some pte ∧ pte.referenced = false) ∧
    (lookupPte r.procs r.vpid r.vpage = some r.vpte ∧ r.vpte.referenced = false) ∧
    (∀ pid pg pte', lookupPte r.procs pid pg = some pte' →
      ∃ pte, lookupPte procs pid pg = some pte ∧ pte'.presented = pte.presented ∧
        pte'.modified = pte.modified ∧ pte'.frame = pte.frame ∧ pte'.fid = pte.fid ∧
        (pte'.referenced = pte.referenced ∨ (pte.referenced = true ∧ pte'.referenced = false))) := by
  have hp := clockReplace_props m procs hand fuel r h
  refine ⟨hp.2.2.2.2.2, ⟨hp.2.1, hp.2.2.1⟩, ?_⟩
  intro pid pg pte' hl
  rcases hp.1 pid pg with he | ⟨pte, hsome, htrue, hcl⟩
  · rw [he] at hl
    exact ⟨pte', hl, rfl, rfl, rfl, rfl, Or.inl rfl⟩
  · rw [hcl] at hl
    have hq : pte' = { pte with referenced := false } := by simpa using hl.symm
    rw [hq]
    exact ⟨pte, hsome, rfl, rfl, rfl, rfl, Or.inr ⟨htrue, rfl⟩⟩

/-- The process owned by pid 1 in the clock witnesses: one presented,
referenced page resident in frame 0. -/
def procW3 : Process :=
  { pid := 1, pageTable := [{ presented := true, referenced := true, frame := some 0 }],
    ttl := 10, idleSet := [0], workingSet := [], workingSetTtl := 1, counter := 0 }

/-- Process map for the clock witnesses. -/
def procsW3 : ProcMap := [(1, procW3)]

/-- MMU for the clock witnesses: a single busy frame bound to (1, 0). -/
def mmuW3 : MMU :=
  { frameTable := [{ fid := 0, busy := true, pid := 1, page := 0 }],
    busyTable := [0], freeTable := [] }

theorem resolvW3 : Resolv mmuW3 procsW3 := by
  intro fid hfid
  have hfid0 : fid = 0 := by
    have : mmuW3.busyTable = [0] := rfl
    rw [this] at hfid
    simpa using hfid
  rw [hfid0]
  exact ⟨{ fid := 0, busy := true, pid := 1, page := 0 }, by decide,
    { presented := true, referenced := true, frame := some 0 }, by decide⟩

theorem clock_replace_terminates_witness :
    ∃ r, clockReplace (2 * mmuW3.busyTable.length) mmuW3 procsW3 0 = .ok r ∧
      r.trace.length ≤ 2 * mmuW3.busyTable.length ∧
      lookupPte r.procs r.vpid r.vpage = some r.vpte :=
  clock_replace_terminates mmuW3 procsW3 0 (by decide) resolvW3

/-- The process of pid 1 after the sweep cleared its referenced bit. -/
def procW3c : Process :=
  { pid := 1, pageTable := [{ presented := true, referenced := false, frame := some 0 }],
    ttl := 10, idleSet := [0], workingSet := [], workingSetTtl := 1, counter := 0 }

/-- The concrete result of the two-inspection sweep on the witness state:
the single referenced bit is cleared on the first pass and the entry is
returned on the second. -/
def rW3 : ClockRes :=
  { procs := [(1, procW3c)], hand := 0, vfid := 0, vpid := 1, vpage := 0,
    vpte := { presented := true, referenced := false, frame := some 0 },
    trace := [(1, 0, true), (1, 0, false)] }

theorem clock_replace_effects_witness :
    (∀ e ∈ rW3.trace, e.2.2 = true →
      ∃ pte, lookupPte rW3.procs e.1 e.2.1 = some pte ∧ pte.referenced = false) ∧
    (lookupPte rW3.procs rW3.vpid rW3.vpage = some rW3.vpte ∧ rW3.vpte.referenced = false) ∧
    (∀ pid pg pte', lookupPte rW3.procs pid pg = some pte' →
      ∃ pte, lookupPte procsW3 pid pg = some pte ∧ pte'.presented = pte.presented ∧
        pte'.modified = pte.modified ∧ pte'.frame = pte.frame ∧ pte'.fid = pte.fid ∧
        (pte'.referenced = pte.referenced ∨ (pte.referenced = true ∧ pte'.referenced = false))) :=
  clock_replace_effects mmuW3 procsW3 0 2 rW3 (by decide)

/-! ## C10: the syscall dispatcher catches everything it dispatches -/

theorem Cleared_lookup_isSome (procs procs' : ProcMap) (h : Cleared procs procs')
    (pid pg : Nat) (pte : PageTableEntry) (hl : lookupPte procs pid pg = some pte) :
    ∃ pte', lookupPte procs' pid pg = some pte' := by
  rcases h pid pg with he | ⟨q, _, _, hc⟩
  · rw [he]
    exact ⟨pte, hl⟩
  · exact ⟨_, hc⟩

theorem handlePageFault_ok (k : Kernel) (pid page fuel : Nat) (proc : Process) (pte : PageTableEntry)
    (hl : lookupProc k.processes pid = some proc)
    (hpt : proc.pageTable[page]? = some pte)
    (H1 : k.mmu.freeTable = [] → k.mmu.busyTable ≠ [])
    (H2 : ∀ fid ∈ k.mmu.busyTable, ∃ fr, k.mmu.frameTable[fid]? = some fr ∧
        ∃ q, lookupPte k.processes fr.pid fr.page = some q ∧ q.presented = true ∧ q.frame = some fid)
    (H3 : 2 * k.mmu.busyTable.length ≤ fuel) :
    ∃ k2, k.handlePageFault pid page fuel = .ok k2 := by
  have hlook : lookupPte k.processes pid page = some pte := by
    unfold lookupPte
    rw [hl]
    exact hpt
  cases hfl : k.mmu.freeTable.getLast? with
  | some fid =>
    have halloc : k.mmu.alloc pid page =
        ({ frameTable := updFrame k.mmu.frameTable fid (fun q => { q with busy := true, pid := pid, page := page }),
           busyTable := busyAdd k.mmu.busyTable fid, freeTable := k.mmu.freeTable.dropLast }, some fid) := by
      unfold MMU.alloc
      rw [hfl]
    simp only [Kernel.handlePageFault, hl, halloc, bindPte, hlook]
    exact ⟨_, rfl⟩
  | none =>
    have hempty : k.mmu.freeTable = [] := List.getLast?_eq_none_iff.mp hfl
    have hne : k.mmu.busyTable ≠ [] := H1 hempty
    have hlenpos : 0 < k.mmu.busyTable.length := List.length_pos.mpr hne
    have halloc : k.mmu.alloc pid page = (k.mmu, none) := by
      unfold MMU.alloc
      rw [hfl]
    have hres : Resolv k.mmu k.processes := by
      intro f hf
      rcases H2 f hf with ⟨fr, hfr, q, hq, _⟩
      exact ⟨fr, hfr, q, hq⟩
    have hfuel : countTrue k.mmu k.processes < fuel := by
      have hct : countTrue k.mmu k.processes ≤ k.mmu.busyTable.length := List.length_filter_le _ _
      omega
    rcases clockReplace_terminates k.mmu k.processes k.replHand fuel hne hres hfuel with ⟨r, hr, _⟩
    have hp := clockReplace_props k.mmu k.processes k.replHand fuel r hr
    have hvlook := hp.2.1
    rcases hp.2.2.2.2.1 with ⟨fr3, hfr3, hpid3, hpage3⟩
    rcases H2 r.vfid hp.2.2.2.1 with ⟨fr2, hfr2, pte0, hpte0, _hpres0, hframe0⟩
    have hfr23 : fr2 = fr3 := by
      rw [hfr3] at hfr2
      exact (Option.some_inj.mp hfr2).symm
    have hpte0v : lookupPte k.processes r.vpid r.vpage = some pte0 := by
      rw [← hpid3, ← hpage3, ← hfr23]
      exact hpte0
    have hvframe : r.vpte.frame = some r.vfid := by
      rcases hp.1 r.vpid r.vpage with he | ⟨q, hq, _, hc⟩
      · rw [he] at hvlook
        rw [hvlook] at hpte0v
        rw [Option.some_inj.mp hpte0v]
        exact hframe0
      · rw [hc] at hvlook
        have hv : r.vpte = { q with referenced := false } := (Option.some_inj.mp hvlook).symm
        rw [hq] at hpte0v
        have hq0 : q = pte0 := Option.some_inj.mp hpte0v
        rw [hv, hq0]
        exact hframe0
    rcases Cleared_lookup_isSome k.processes r.procs hp.1 pid page pte hlook with ⟨pte1, hpte1⟩
    rcases lookupPte_setPte_isSome r.procs r.vpid r.vpage pid page
      (fun q => { q with presented := false }) pte1 hpte1 with ⟨pte2, hpte2⟩
    simp only [Kernel.handlePageFault, hl, halloc, hr, hvframe, bindPte, hpte2]
    exact ⟨_, rfl⟩

/-- C10: every exception thrown inside the dispatch `try` block of
`kernel.syscall` is caught: a thrown value whose `type` is not
`PAGE_FAULT` (a runtime `TypeError`, e.g. from resolving an invalid page
index) is silently discarded, `syscall` returning normally with the state
exactly as at the point of the throw; a `PageFault` is routed to the
page-fault handler; and under the kernel residency invariants (busy set
non-empty when the free list is exhausted, every busy frame resolving to
a presented entry of a live process) with enough fuel for the clock sweep,
`syscall` always returns normally — it never propagates an exception. -/
theorem syscall_no_propagation (k : Kernel) (sc : Syscall) (fuel : Nat)
    (H1 : k.mmu.freeTable = [] → k.mmu.busyTable ≠ [])
    (H2 : ∀ fid ∈ k.mmu.busyTable, ∃ fr, k.mmu.frameTable[fid]? = some fr ∧
        ∃ q, lookupPte k.processes fr.pid fr.page = some q ∧ q.presented = true ∧ q.frame = some fid)
    (H3 : 2 * k.mmu.busyTable.length ≤ fuel) :
    (∀ k1, k.dispatch sc = .exn k1 .typeError → k.syscall sc fuel = .ok k1) ∧
    (∀ k1 pid page, k.dispatch sc = .exn k1 (.pageFault pid page) →
      k.syscall sc fuel = k1.handlePageFault pid page fuel) ∧
    (∃ k2, k.syscall sc fuel = .ok k2) := by
  refine ⟨?_, ?_, ?_⟩
  · intro k1 hd
    simp only [Kernel.syscall, hd, Kernel.handleException]
  · intro k1 pid page hd
    simp only [Kernel.syscall, hd, Kernel.handleException]
  · cases sc with
    | exit pid =>
      cases hl : lookupProc k.processes pid with
      | none =>
        simp only [Kernel.syscall, Kernel.dispatch, Kernel.terminateProcess, hl, Kernel.handleException]
        exact ⟨k, rfl⟩
      | some proc =>
        simp only [Kernel.syscall, Kernel.dispatch, Kernel.terminateProcess, hl]
        exact ⟨_, rfl⟩
    | accessMemory pid page modify =>
      cases hl : lookupProc k.processes pid with
      | none =>
        simp only [Kernel.syscall, Kernel.dispatch, hl, Kernel.handleException]
        exact ⟨k, rfl⟩
      | some proc =>
        cases page with
        | none =>
          have hacc : k.mmu.access pid proc.pageTable none modify =
              (k.mmu, proc.pageTable, some .typeError) := rfl
          simp only [Kernel.syscall, Kernel.dispatch, hl, hacc, Kernel.handleException]
          exact ⟨k, rfl⟩
        | some p =>
          cases hpt : proc.pageTable[p]? with
          | none =>
            have hacc : k.mmu.access pid proc.pageTable (some p) modify =
                (k.mmu, proc.pageTable, some .typeError) := by
              simp only [MMU.access, hpt]
            simp only [Kernel.syscall, Kernel.dispatch, hl, hacc, Kernel.handleException]
            exact ⟨k, rfl⟩
          | some pte =>
            by_cases hpres : pte.presented = false
            · have hacc : k.mmu.access pid proc.pageTable (some p) modify =
                  (k.mmu, proc.pageTable, some (.pageFault pid p)) := by
                simp only [MMU.access, hpt]
                rw [if_pos hpres]
              simp only [Kernel.syscall, Kernel.dispatch, hl, hacc, Kernel.handleException]
              exact handlePageFault_ok k pid p fuel proc pte hl hpt H1 H2 H3
            · have hacc : k.mmu.access pid proc.pageTable (some p) modify =
                  (k.mmu, proc.pageTable.set p { pte with referenced := true, modified := pte.modified || modify }, none) := by
                simp only [MMU.access, hpt]
                rw [if_neg hpres]
              simp only [Kernel.syscall, Kernel.dispatch, hl, hacc]
              exact ⟨_, rfl⟩

theorem syscall_no_propagation_witness :
    ∃ k2, kW2.syscall (Syscall.accessMemory 5 (some 0) true) 2 = .ok k2 :=
  (syscall_no_propagation kW2 (Syscall.accessMemory 5 (some 0) true) 2
    (by decide)
    (by
      intro fid hfid
      have hfid0 : fid = 0 := by
        have hb : kW2.mmu.busyTable = [0] := rfl
        rw [hb] at hfid
        simpa using hfid
      rw [hfid0]
      exact ⟨{ fid := 0, busy := true, pid := 5, page := 0 }, by decide,
        { presented := true, frame := some 0 }, by decide, rfl, rfl⟩)
    (by decide)).2.2
